import Mathlib

/-!
Verification development for the deployment toolkit's core helpers:
the environment-file store (`deploy/helpers/updateEnvFile.js`), the
address extractor (`deploy/helpers/extractAddress.js`), the command
runner (`deploy/helpers/executeCommand.js`), the functions-secrets
setup (`deploy/modules/functions.js`) and the top-level pipeline
(`deploy/deploy.js`).  Text is modelled as `List Char`; the JavaScript
regular expressions used by the code are embedded as explicit scanning
functions whose behaviour coincides with the source regexes on the
stated domains (keys made of word characters, text free of lone
carriage returns and of the Unicode line separators U+2028/U+2029).
-/

/-- Character class of the JavaScript `\s` escape (ECMAScript WhiteSpace
and LineTerminator characters). -/
def isJsSpace (c : Char) : Bool :=
  c = ' ' || c = '\t' || c = '\n' || c = '\x0b' || c = '\x0c' || c = '\r' ||
  c = Char.ofNat 0xa0 || c = Char.ofNat 0x1680 ||
  (0x2000 ≤ c.toNat && c.toNat ≤ 0x200a) ||
  c = Char.ofNat 0x2028 || c = Char.ofNat 0x2029 || c = Char.ofNat 0x202f ||
  c = Char.ofNat 0x205f || c = Char.ofNat 0x3000 || c = Char.ofNat 0xfeff

/-- Line-separator characters other than `'\n'` that a JavaScript regex
treats specially (the dot does not match them, and with the `m` flag `^`
matches after them).  The line-level model below assumes the content is
free of them. -/
def badSepChar (c : Char) : Bool :=
  c = '\r' || c = Char.ofNat 0x2028 || c = Char.ofNat 0x2029

/-- Character class of the JavaScript regex dot (no `s` flag): any
character except `'\n'`, `'\r'`, U+2028 and U+2029. -/
def dotOk (c : Char) : Bool :=
  !(c = '\n' || badSepChar c)

/-- Strip a literal character sequence from the front of a string,
returning the remainder on success.  This is how the embedded regexes
consume the literal parts of their patterns. -/
def stripLit : List Char → List Char → Option (List Char)
  | [], s => some s
  | _ :: _, [] => none
  | l :: ls, c :: cs => if c = l then stripLit ls cs else none

/-- Split text into its `'\n'`-separated lines, the way the `m` flag
makes `^` see the content of the file.  `splitLines "a\nb\n"` is
`["a", "b", ""]`. -/
def splitLines : List Char → List (List Char)
  | [] => [[]]
  | c :: cs =>
    if c = '\n' then [] :: splitLines cs
    else
      match splitLines cs with
      | [] => [[c]]
      | l :: ls => (c :: l) :: ls

/-- Join lines back with `'\n'`; left inverse of `splitLines`. -/
def joinLines : List (List Char) → List Char
  | [] => []
  | [l] => l
  | l :: l' :: ls => l ++ '\n' :: joinLines (l' :: ls)

/-- Embedding of the regex `^export\s+KEY=.*` (with the `m` flag) tested
against one line: `updateEnvFile.js` line 39.  On success it returns the
part of the line left over after the `.*` (non-empty only when the line
contains characters the dot cannot match). -/
def exportLineMatch (key line : List Char) : Option (List Char) :=
  match stripLit ("export".toList) line with
  | none => none
  | some r1 =>
    if (r1.takeWhile isJsSpace).isEmpty then none
    else
      match stripLit key (r1.dropWhile isJsSpace) with
      | none => none
      | some r2 =>
        match r2 with
        | [] => none
        | c :: r3 => if c = '=' then some (r3.dropWhile dotOk) else none

/-- Embedding of the regex `^KEY=.*` (with the `m` flag) tested against
one line: `updateEnvFile.js` line 40. -/
def regularLineMatch (key line : List Char) : Option (List Char) :=
  match stripLit key line with
  | none => none
  | some r =>
    match r with
    | [] => none
    | c :: r2 => if c = '=' then some (r2.dropWhile dotOk) else none

/-- A line is an active (non-comment) definition of `key` when either of
the two regexes of `updateEnvFile.js` matches it. -/
def isDefLine (key line : List Char) : Bool :=
  (exportLineMatch key line).isSome || (regularLineMatch key line).isSome

/-- Replace the first line satisfying `p` using `f`, leaving every other
line unchanged; this is `String.prototype.replace` with a non-global
regex, viewed at the line level. -/
def replaceFirstLine (p : List Char → Bool) (f : List Char → List Char) :
    List (List Char) → List (List Char)
  | [] => []
  | l :: ls => if p l then f l :: ls else l :: replaceFirstLine p f ls

/-- JavaScript `envContent.endsWith("\n")`: `updateEnvFile.js` line 51. -/
def endsWithNewline (c : List Char) : Bool :=
  match c.getLast? with
  | some ch => ch = '\n'
  | none => false

/-- The replacement / appended line `export ${key}=${value}` built at
`updateEnvFile.js` line 41. -/
def newEnvLine (key value : List Char) : List Char :=
  ("export ".toList) ++ key ++ '=' :: value

/-- Content transformation performed by `updateEnvFile`
(`updateEnvFile.js` lines 39-55): replace the first `export KEY=` line,
else the first `KEY=` line, else append `export KEY=VALUE` (adding a
newline first when the content does not end with one).  The replacement
is literal; the JavaScript `$`-substitutions of `String.replace` are
outside the model, so the model is exact for `'$'`-free keys and
values. -/
def updateEnvContent (key value content : List Char) : List Char :=
  if (splitLines content).any (fun l => (exportLineMatch key l).isSome) then
    joinLines (replaceFirstLine (fun l => (exportLineMatch key l).isSome)
      (fun l => newEnvLine key value ++ ((exportLineMatch key l).getD []))
      (splitLines content))
  else if (splitLines content).any (fun l => (regularLineMatch key l).isSome) then
    joinLines (replaceFirstLine (fun l => (regularLineMatch key l).isSome)
      (fun l => newEnvLine key value ++ ((regularLineMatch key l).getD []))
      (splitLines content))
  else
    (if endsWithNewline content then content else content ++ ['\n']) ++
      newEnvLine key value ++ ['\n']

/-- ASCII word characters, the class `\w` of JavaScript regexes.  The
bundled disjointness tests (not a space, not a line separator, not `'$'`)
are consequences of being a word character, recorded here so that they
are available computationally. -/
def goodKeyChar (c : Char) : Bool :=
  (('a' ≤ c && c ≤ 'z') || ('A' ≤ c && c ≤ 'Z') ||
    ('0' ≤ c && c ≤ '9') || c = '_') &&
  !isJsSpace c && !(c = '\n') && !badSepChar c && !(c = '$') && !(c = '=')

/-- Keys on which the embedded matchers agree exactly with the source
regexes: non-empty sequences of word characters (every key the pipeline
writes - CONTRACT_ADDRESS, FUNCTIONS_SECRETS_VERSION,
AUTOMATION_FORWARDER_ADDRESS - is of this shape). -/
def isWordKey (key : List Char) : Bool :=
  !key.isEmpty && key.all goodKeyChar

/-- Values for which the written `export KEY=VALUE` line stays a single
line and the literal replacement agrees with `String.replace`: no line
terminators and no `'$'`. -/
def valueOk (v : List Char) : Bool :=
  v.all (fun c => dotOk c && !(c = '$'))

/-- A line that would make the `\s+` of `^export\s+KEY=` run past the end
of the line (the word `export` followed by nothing but whitespace), the
only situation in which that regex can span a line break. -/
def isDanglingExport (l : List Char) : Bool :=
  match stripLit ("export".toList) l with
  | some r => r.all isJsSpace
  | none => false

/-- Contents on which the line-level model coincides with the source
regexes: no lone carriage returns or Unicode line separators, and no
dangling `export` line. -/
def envWellFormed (content : List Char) : Bool :=
  content.all (fun c => !badSepChar c) &&
  (splitLines content).all (fun l => !isDanglingExport l)

/-- The active definition lines a content holds for a key. -/
def defLinesFor (key content : List Char) : List (List Char) :=
  (splitLines content).filter (fun l => isDefLine key l)

/-! ## File-system and process state (`updateEnvFile.js` lines 19-82) -/

/-- The two paths `updateEnvFile` touches: the environment file and its
temporary sibling `envPath + ".tmp"`.  `none` means the file does not
exist. -/
structure FsState where
  envFile : Option (List Char)
  tmpFile : Option (List Char)
deriving DecidableEq

/-- Reading step of `updateEnvFile` (lines 29-36) with the default
`createIfMissing = true` used by every caller: an existing file is read,
a missing one is initialised with the header comment. -/
def readEnvOrInit (fs : FsState) : List Char :=
  match fs.envFile with
  | some c => c
  | none => ("# Environment Variables\n".toList)

/-- The full content the function will write for the given state. -/
def newEnvContent (key value : List Char) (fs : FsState) : List Char :=
  updateEnvContent key value (readEnvOrInit fs)

/-- Effect of `fs.writeFileSync(tempPath, envContent)` (line 59). -/
def writeTmp (content : List Char) (fs : FsState) : FsState :=
  { fs with tmpFile := some content }

/-- Effect of `fs.renameSync(tempPath, envPath)` (line 60). -/
def renameTmpToEnv (fs : FsState) : FsState :=
  { envFile := fs.tmpFile, tmpFile := none }

/-- File-system effect of a successful `updateEnvFile` call: temp write
followed by rename. -/
def updateEnvFileFs (key value : List Char) (fs : FsState) : FsState :=
  renameTmpToEnv (writeTmp (newEnvContent key value fs) fs)

/-- Process state: the file system plus the live `process.env` map. -/
structure ProcState where
  fs : FsState
  procEnv : List Char → Option (List Char)

/-- Full effect of a successful `updateEnvFile(key, value)` call
(`updateEnvFile.js` lines 25-66): rewrite the file atomically and also
set `process.env[key] = value` (line 63).  The returned boolean is the
function's success status. -/
def updateEnvFile (key value : List Char) (st : ProcState) : Bool × ProcState :=
  (true,
   { fs := updateEnvFileFs key value st.fs,
     procEnv := fun k => if k = key then some value else st.procEnv k })

/-- Embedding of `getEnvVar` (`updateEnvFile.js` lines 80-82):
`process.env[key] || defaultValue`.  An empty-string value is falsy in
JavaScript, so it falls through to the default. -/
def getEnvVar (st : ProcState) (key : List Char) (defaultValue : Option (List Char)) :
    Option (List Char) :=
  match st.procEnv key with
  | some v => if v.isEmpty then defaultValue else some v
  | none => defaultValue

/-! ## Address extractor (`extractAddress.js`) -/

/-- The backquote character appearing in the last pattern of
`extractAddress.js`. -/
def backquoteChar : Char := Char.ofNat 96

/-- Characters of the class `[0-9a-fA-F]`. -/
def isHexDigitChar (c : Char) : Bool :=
  ('0' ≤ c && c ≤ '9') || ('a' ≤ c && c ≤ 'f') || ('A' ≤ c && c ≤ 'F')

/-- Characters of the class `[0-9a-fA-Fx]` (case-sensitive patterns). -/
def hexXCls (c : Char) : Bool :=
  isHexDigitChar c || c = 'x'

/-- Characters of the class `[0-9a-fA-Fx]` under the `i` flag, which
additionally admits `'X'`. -/
def hexXClsI (c : Char) : Bool :=
  isHexDigitChar c || c = 'x' || c = 'X'

/-- Case-sensitive character comparison. -/
def ceq (a b : Char) : Bool := a = b

/-- Case-insensitive character comparison used by the `i`-flagged
patterns (ASCII folding, which is what these patterns contain). -/
def cieq (a b : Char) : Bool := a.toLower = b.toLower

/-- Strip a literal under a character comparison. -/
def stripLitBy (eqc : Char → Char → Bool) : List Char → List Char → Option (List Char)
  | [], s => some s
  | _ :: _, [] => none
  | l :: ls, c :: cs => if eqc l c then stripLitBy eqc ls cs else none

/-- Continuation for the patterns ending in `([0-9a-fA-Fx]+)`: the
greedy capture is the maximal run of class characters, required to be
non-empty. -/
def classTake (cls : Char → Bool) (t : List Char) : Option (List Char) :=
  if (t.takeWhile cls).isEmpty then none else some (t.takeWhile cls)

/-- Continuation for `== Logs ==\s*\n\s*(0x[a-fA-F0-9]{40})`: after the
literal, the whitespace run must contain a line break and be followed
immediately by `0x` and forty hex digits (the capture). -/
def logsTail (t : List Char) : Option (List Char) :=
  if (t.takeWhile isJsSpace).contains '\n' then
    match t.dropWhile isJsSpace with
    | '0' :: 'x' :: rest =>
      if (rest.take 40).length = 40 && (rest.take 40).all isHexDigitChar then
        some ('0' :: 'x' :: rest.take 40)
      else none
    | _ => none
  else none

/-- Continuation for ``Start verifying contract `(0x[a-fA-F0-9]{40})` ``:
`0x`, exactly forty hex digits, then the closing backquote. -/
def verifyTail (t : List Char) : Option (List Char) :=
  match t with
  | '0' :: 'x' :: rest =>
    if (rest.take 40).length = 40 && (rest.take 40).all isHexDigitChar then
      match rest.drop 40 with
      | c :: _ => if c = backquoteChar then some ('0' :: 'x' :: rest.take 40) else none
      | [] => none
    else none
  | _ => none

/-- Regex search as `String.prototype.match` performs it: try the
pattern (a literal followed by a continuation) at each position from the
left, returning the capture of the first position where it matches. -/
def scanMatch (eqc : Char → Char → Bool) (lit : List Char)
    (k : List Char → Option (List Char)) : List Char → Option (List Char)
  | [] => (stripLitBy eqc lit []).bind k
  | c :: rest =>
    match (stripLitBy eqc lit (c :: rest)).bind k with
    | some cap => some cap
    | none => scanMatch eqc lit k rest

/-- The fixed pattern list of `extractAddress.js` lines 7-15, in source
order.  Each entry maps the input text to the pattern's first capture
group, or `none` when the pattern does not match. -/
def addressPatterns : List (List Char → Option (List Char)) :=
  [ scanMatch ceq ("Contract Address: ".toList) (classTake hexXCls),
    scanMatch ceq ("Deployed to: ".toList) (classTake hexXCls),
    scanMatch cieq ("deployed at: ".toList) (classTake hexXClsI),
    scanMatch cieq ("DStock deployed at: ".toList) (classTake hexXClsI),
    scanMatch cieq ("Test_USDC deployed at: ".toList) (classTake hexXClsI),
    scanMatch ceq ("== Logs ==".toList) logsTail,
    scanMatch ceq (("Start verifying contract ".toList) ++ [backquoteChar]) verifyTail ]

/-- The loop of `extractAddress.js` lines 17-23: return `match[1]` of the
first pattern with a truthy first capture (an empty capture is falsy and
is skipped, exactly as in the source). -/
def firstCapture : List (List Char → Option (List Char)) → List Char → Option (List Char)
  | [], _ => none
  | p :: ps, s =>
    match p s with
    | some cap => if cap.isEmpty then firstCapture ps s else some cap
    | none => firstCapture ps s

/-- Embedding of `extractAddressFromForgeOutput`. -/
def extractAddressFromForgeOutput (output : List Char) : Option (List Char) :=
  firstCapture addressPatterns output

/-! ## Command runner (`executeCommand.js`) -/

/-- Outcome of the settled promise returned by `executeCommand`. -/
inductive PromiseResult (α : Type) (ε : Type) where
  | resolved : α → PromiseResult α ε
  | rejected : ε → PromiseResult α ε
deriving DecidableEq

/-- Observable behaviour of the external command run by `child_process.exec`:
its exit code and its fully buffered output streams. -/
structure ExecOutcome where
  exitCode : Nat
  stdout : List Char
  stderr : List Char
deriving DecidableEq

/-- Error argument `exec` passes to its callback: `none` exactly when
the command exits with code 0, otherwise an error carrying the exit
code (Node's documented callback contract). -/
def execCallbackError (o : ExecOutcome) : Option Nat :=
  if o.exitCode = 0 then none else some o.exitCode

/-- Embedding of `executeCommand` (`executeCommand.js` lines 8-24): the
callback rejects the promise with the error when one is present and
resolves it with the buffered stdout otherwise. -/
def executeCommand (o : ExecOutcome) : PromiseResult (List Char) Nat :=
  match execCallbackError o with
  | some e => PromiseResult.rejected e
  | none => PromiseResult.resolved o.stdout

/-! ## Functions-secrets setup (`modules/functions.js` lines 23-49) -/

/-- ASCII word characters (`\w`). -/
def isWordChar (c : Char) : Bool :=
  c.isAlphanum || c = '_'

/-- Worker for `numberTokens`: `prevWord` tells whether the previous
character was a word character, `cur` holds the digit run in progress
(reversed). -/
def numberTokensGo : Bool → Option (List Char) → List Char → List (List Char)
  | _, some r, [] => [r.reverse]
  | _, none, [] => []
  | prevWord, some r, c :: cs =>
    if c.isDigit then numberTokensGo prevWord (some (c :: r)) cs
    else if isWordChar c then numberTokensGo true none cs
    else r.reverse :: numberTokensGo false none cs
  | prevWord, none, c :: cs =>
    if c.isDigit then
      if prevWord then numberTokensGo true none cs
      else numberTokensGo prevWord (some [c]) cs
    else numberTokensGo (isWordChar c) none cs

/-- All matches of the global regex `\b\d+\b` (`functions.js` line 29):
maximal digit runs flanked by word boundaries, in order. -/
def numberTokens (s : List Char) : List (List Char) :=
  numberTokensGo false none s

/-- The string `"1"`, the fallback secrets version. -/
def oneTok : List Char := ['1']

/-- The version computed at `functions.js` line 30: the last number
token of the upload output, or `"1"` when there is none. -/
def versionFromOutput (out : List Char) : List Char :=
  match (numberTokens out).getLast? with
  | some v => v
  | none => oneTok

/-- Oracle for the effects `setupFunctions` depends on: the settled
result of the secrets-upload command (`some stdout` when it resolved,
`none` when it rejected) and the success of each `updateEnvFile` call
it may make (the one in the `try` branch, then the one in the `catch`
branch). -/
structure SetupEnv where
  uploadOutput : Option (List Char)
  write1Ok : Bool
  write2Ok : Bool

/-- Result of `setupFunctions`: a returned version string, or a thrown
error. -/
inductive SetupResult where
  | ok : List Char → SetupResult
  | thrown : SetupResult
deriving DecidableEq

/-- Embedding of `ChainlinkFunctions.setupFunctions` (`functions.js`
lines 23-49).  The second component lists the values this run passed to
`updateEnvFile("FUNCTIONS_SECRETS_VERSION", -)`, in order.  A failed
write inside the `try` block throws, which the function's own `catch`
then handles by attempting the fallback write of `"1"`. -/
def setupFunctions (e : SetupEnv) : SetupResult × List (List Char) :=
  match e.uploadOutput with
  | some out =>
    let version := versionFromOutput out
    if e.write1Ok then (SetupResult.ok version, [version])
    else if e.write2Ok then (SetupResult.ok oneTok, [version, oneTok])
    else (SetupResult.thrown, [version, oneTok])
  | none =>
    if e.write2Ok then (SetupResult.ok oneTok, [oneTok])
    else (SetupResult.thrown, [oneTok])

/-! ## Pipeline control flow (`deploy.js`) -/

/-- The stages the `deploy` entry point can start, in the order the
source starts them: configuration validation (line 76), the forge
deploy command (lines 37-39), address extraction (line 41), persisting
the address (line 48), then - when selected - `setupFunctions`
(line 98), `addFunctionsConsumer` (line 99) and `registerAutomation`
(line 109). -/
inductive Stage where
  | validate
  | forgeScript
  | extractAddr
  | persistAddr
  | setupFunctionsStep
  | addConsumerStep
  | registerAutomationStep
deriving DecidableEq

/-- The stages `deploy` would run with both services selected and no
failures, in source order. -/
def canonicalStageOrder : List Stage :=
  [Stage.validate, Stage.forgeScript, Stage.extractAddr, Stage.persistAddr,
   Stage.setupFunctionsStep, Stage.addConsumerStep, Stage.registerAutomationStep]

/-- The sequence of steps `deploy(options)` schedules, each paired with
the oracle telling whether it succeeds.  Optional blocks appear exactly
when their flag is set (`deploy.js` lines 97 and 108). -/
def stagePlan (fns auto vOk fOk eOk pOk sOk cOk aOk : Bool) : List (Stage × Bool) :=
  [(Stage.validate, vOk), (Stage.forgeScript, fOk),
   (Stage.extractAddr, eOk), (Stage.persistAddr, pOk)] ++
  (if fns then [(Stage.setupFunctionsStep, sOk), (Stage.addConsumerStep, cOk)] else []) ++
  (if auto then [(Stage.registerAutomationStep, aOk)] else [])

/-- Run a step plan under the single `try`/`catch` of `deploy`
(lines 67-133): steps start in order until one fails; a failure is
caught at the top level and turns into `process.exit(1)`, skipping every
remaining step; completion exits 0.  Returns the started stages and the
exit code. -/
def runPlan : List (Stage × Bool) → List Stage × Nat
  | [] => ([], 0)
  | (s, ok) :: rest =>
    if ok then ((s :: (runPlan rest).1), (runPlan rest).2)
    else ([s], 1)

/-- Embedding of the `deploy` pipeline's control flow over the step
oracles. -/
def deployRun (fns auto vOk fOk eOk pOk sOk cOk aOk : Bool) : List Stage × Nat :=
  runPlan (stagePlan fns auto vOk fOk eOk pOk sOk cOk aOk)

/-! ## Lemmas about lines -/

theorem splitLines_ne_nil (c : List Char) : splitLines c ≠ [] := by
  induction c with
  | nil => simp [splitLines]
  | cons ch cs ih =>
    unfold splitLines
    by_cases hch : ch = '\n'
    · simp [hch]
    · rw [if_neg hch]
      cases h : splitLines cs <;> simp

theorem splitLines_cons (c : Char) (cs : List Char) :
    splitLines (c :: cs) =
      if c = '\n' then [] :: splitLines cs
      else
        match splitLines cs with
        | [] => [[c]]
        | l :: ls => (c :: l) :: ls := rfl

theorem mem_splitLines_mem (c : List Char) :
    ∀ l ∈ splitLines c, ∀ x ∈ l, x ∈ c ∧ ¬(x = '\n') := by
  induction c with
  | nil =>
    intro l hl x hx
    simp [splitLines] at hl
    subst hl
    simp at hx
  | cons ch cs ih =>
    intro l hl x hx
    unfold splitLines at hl
    by_cases hch : ch = '\n'
    · rw [if_pos hch] at hl
      rcases List.mem_cons.mp hl with h | h
      · subst h; simp at hx
      · rcases ih l h x hx with ⟨h1, h2⟩
        exact ⟨List.mem_cons_of_mem _ h1, h2⟩
    · rw [if_neg hch] at hl
      rcases hsc : splitLines cs with _ | ⟨m, ms⟩
      · exact absurd hsc (splitLines_ne_nil cs)
      · rw [hsc] at hl
        rcases List.mem_cons.mp hl with h | h
        · subst h
          rcases List.mem_cons.mp hx with h | h
          · subst h; exact ⟨List.mem_cons_self _ _, hch⟩
          · have hm : m ∈ splitLines cs := by rw [hsc]; exact List.mem_cons_self _ _
            rcases ih m hm x h with ⟨h1, h2⟩
            exact ⟨List.mem_cons_of_mem _ h1, h2⟩
        · have hm : l ∈ splitLines cs := by rw [hsc]; exact List.mem_cons_of_mem _ h
          rcases ih l hm x hx with ⟨h1, h2⟩
          exact ⟨List.mem_cons_of_mem _ h1, h2⟩

theorem joinLines_splitLines (c : List Char) : joinLines (splitLines c) = c := by
  induction c with
  | nil => rfl
  | cons ch cs ih =>
    unfold splitLines
    by_cases hch : ch = '\n'
    · rw [if_pos hch]
      rcases hsc : splitLines cs with _ | ⟨m, ms⟩
      · exact absurd hsc (splitLines_ne_nil cs)
      · rw [hsc] at ih
        subst hch
        simpa [joinLines] using ih
    · rw [if_neg hch]
      rcases hsc : splitLines cs with _ | ⟨m, ms⟩
      · exact absurd hsc (splitLines_ne_nil cs)
      · rw [hsc] at ih
        cases ms with
        | nil =>
          simp only [joinLines] at ih ⊢
          rw [ih]
        | cons m2 ms2 =>
          simp only [joinLines] at ih ⊢
          rw [List.cons_append, ih]

theorem splitLines_of_no_newline (l : List Char) (h : ∀ x ∈ l, ¬(x = '\n')) :
    splitLines l = [l] := by
  induction l with
  | nil => rfl
  | cons c cs ih =>
    unfold splitLines
    rw [if_neg (h c (List.mem_cons_self c cs))]
    rw [ih (fun x hx => h x (List.mem_cons_of_mem _ hx))]

theorem splitLines_noNl_append (a b : List Char) (ha : ∀ x ∈ a, ¬(x = '\n')) :
    splitLines (a ++ '\n' :: b) = a :: splitLines b := by
  induction a with
  | nil => simp [splitLines]
  | cons c cs ih =>
    have hc : ¬(c = '\n') := ha c (List.mem_cons_self c cs)
    have ih' := ih (fun x hx => ha x (List.mem_cons_of_mem _ hx))
    show splitLines (c :: (cs ++ '\n' :: b)) = (c :: cs) :: splitLines b
    rw [splitLines_cons, if_neg hc, ih']

theorem splitLines_joinLines (ls : List (List Char)) (hne : ls ≠ [])
    (h : ∀ l ∈ ls, ∀ x ∈ l, ¬(x = '\n')) : splitLines (joinLines ls) = ls := by
  induction ls with
  | nil => exact absurd rfl hne
  | cons l ls ih =>
    cases ls with
    | nil => simpa [joinLines] using splitLines_of_no_newline l (h l (List.mem_cons_self _ _))
    | cons l2 ls2 =>
      have hjoin : joinLines (l :: l2 :: ls2) = l ++ '\n' :: joinLines (l2 :: ls2) := rfl
      rw [hjoin, splitLines_noNl_append l _ (h l (List.mem_cons_self _ _))]
      rw [ih (by simp) (fun m hm x hx => h m (List.mem_cons_of_mem _ hm) x hx)]

theorem splitLines_append_line (a b : List Char) (hb : ∀ x ∈ b, ¬(x = '\n')) :
    splitLines (a ++ '\n' :: b) = splitLines a ++ [b] := by
  induction a with
  | nil => simp [splitLines, splitLines_of_no_newline b hb]
  | cons c cs ih =>
    by_cases hc : c = '\n'
    · subst hc
      show splitLines ('\n' :: (cs ++ '\n' :: b)) = splitLines ('\n' :: cs) ++ [b]
      rw [splitLines_cons, splitLines_cons, if_pos rfl, if_pos rfl, ih, List.cons_append]
    · show splitLines (c :: (cs ++ '\n' :: b)) = splitLines (c :: cs) ++ [b]
      rw [splitLines_cons, splitLines_cons, if_neg hc, if_neg hc, ih]
      rcases hsc : splitLines cs with _ | ⟨m, ms⟩
      · exact absurd hsc (splitLines_ne_nil cs)
      · rfl

/-! ## Lemmas about the line matchers -/

theorem stripLit_self (l r : List Char) : stripLit l (l ++ r) = some r := by
  induction l with
  | nil => rfl
  | cons c cs ih => simp [stripLit, ih]

theorem mem_of_stripLit (lit s r : List Char) (h : stripLit lit s = some r) :
    ∀ x ∈ r, x ∈ s := by
  induction lit generalizing s with
  | nil =>
    simp only [stripLit, Option.some.injEq] at h
    subst h
    exact fun x hx => hx
  | cons c cs ih =>
    cases s with
    | nil => exact absurd h (by simp [stripLit])
    | cons d ds =>
      simp only [stripLit] at h
      by_cases hd : d = c
      · rw [if_pos hd] at h
        exact fun x hx => List.mem_cons_of_mem _ (ih ds h x hx)
      · rw [if_neg hd] at h
        exact absurd h (by simp)

theorem exportLineMatch_residue (key l r : List Char)
    (hl : ∀ x ∈ l, dotOk x = true)
    (h : exportLineMatch key l = some r) : r = [] := by
  unfold exportLineMatch at h
  rcases h1 : stripLit ("export".toList) l with _ | r1
  · simp only [h1] at h
    exact Option.noConfusion h
  · simp only [h1] at h
    cases hws : (r1.takeWhile isJsSpace).isEmpty
    · rw [hws] at h
      simp only [Bool.false_eq_true, if_false] at h
      rcases h2 : stripLit key (r1.dropWhile isJsSpace) with _ | r2
      · simp only [h2] at h
        exact Option.noConfusion h
      · simp only [h2] at h
        rcases r2 with _ | ⟨c2, r3⟩
        · simp at h
        · by_cases hc2 : c2 = '='
          · simp only [hc2, if_true] at h
            have hr3 : ∀ x ∈ r3, dotOk x = true := by
              intro x hx
              apply hl
              have hx2 : x ∈ r1.dropWhile isJsSpace :=
                mem_of_stripLit key _ _ h2 x (List.mem_cons_of_mem _ hx)
              have hx3 : x ∈ r1 := (List.dropWhile_sublist _).subset hx2
              exact mem_of_stripLit _ l r1 h1 x hx3
            rw [List.dropWhile_eq_nil_iff.mpr hr3] at h
            exact (Option.some.inj h).symm
          · simp [hc2] at h
    · rw [hws] at h
      simp at h

theorem regularLineMatch_residue (key l r : List Char)
    (hl : ∀ x ∈ l, dotOk x = true)
    (h : regularLineMatch key l = some r) : r = [] := by
  unfold regularLineMatch at h
  rcases h1 : stripLit key l with _ | r1
  · simp only [h1] at h
    exact Option.noConfusion h
  · simp only [h1] at h
    rcases r1 with _ | ⟨c1, r2⟩
    · simp at h
    · by_cases hc1 : c1 = '='
      · simp only [hc1, if_true] at h
        have hr2 : ∀ x ∈ r2, dotOk x = true := fun x hx =>
          hl x (mem_of_stripLit key l _ h1 x (List.mem_cons_of_mem _ hx))
        rw [List.dropWhile_eq_nil_iff.mpr hr2] at h
        exact (Option.some.inj h).symm
      · simp [hc1] at h

theorem goodKeyChar_props {c : Char} (h : goodKeyChar c = true) :
    isJsSpace c = false ∧ ¬(c = '\n') ∧ badSepChar c = false := by
  simp only [goodKeyChar, Bool.and_eq_true, Bool.not_eq_true'] at h
  refine ⟨h.1.1.1.1.2, ?_, h.1.1.2⟩
  have := h.1.1.1.2
  simp at this
  exact this

theorem valueOk_props {v : List Char} (hv : valueOk v = true) :
    ∀ x ∈ v, dotOk x = true := by
  intro x hx
  have := (List.all_eq_true.mp hv) x hx
  exact ((Bool.and_eq_true _ _).mp this).1

theorem isWordKey_head {key : List Char} (hk : isWordKey key = true) :
    ∃ k0 ks, key = k0 :: ks ∧ goodKeyChar k0 = true := by
  rcases key with _ | ⟨k0, ks⟩
  · simp [isWordKey] at hk
  · refine ⟨k0, ks, rfl, ?_⟩
    have := ((Bool.and_eq_true _ _).mp hk).2
    exact (List.all_eq_true.mp this) k0 (List.mem_cons_self _ _)

theorem exportLineMatch_newEnvLine (key value : List Char)
    (hk : isWordKey key = true) (hv : valueOk value = true) :
    exportLineMatch key (newEnvLine key value) = some [] := by
  rcases isWordKey_head hk with ⟨k0, ks, hkey, hgood⟩
  have hsp : isJsSpace k0 = false := (goodKeyChar_props hgood).1
  have e1 : stripLit ("export".toList) (newEnvLine key value) =
      some (' ' :: (key ++ '=' :: value)) := by
    have e0 : newEnvLine key value = ("export".toList) ++ (' ' :: (key ++ '=' :: value)) := by
      unfold newEnvLine
      have hlit : ("export ".toList) = ("export".toList) ++ [' '] := rfl
      rw [hlit, List.append_assoc]
      rfl
    rw [e0, stripLit_self]
  unfold exportLineMatch
  simp only [e1]
  have htake : ((' ' :: (key ++ '=' :: value)).takeWhile isJsSpace) = [' '] := by
    rw [hkey]
    rw [List.takeWhile_cons]
    simp only [List.cons_append, List.takeWhile_cons, hsp]
    simp [isJsSpace]
  have hdrop : ((' ' :: (key ++ '=' :: value)).dropWhile isJsSpace) = key ++ '=' :: value := by
    rw [hkey]
    rw [List.dropWhile_cons]
    simp only [List.cons_append, List.dropWhile_cons, hsp]
    simp [isJsSpace]
  rw [htake, hdrop]
  simp only [List.isEmpty_cons, Bool.false_eq_true, if_false]
  rw [stripLit_self]
  simp [List.dropWhile_eq_nil_iff.mpr (valueOk_props hv)]

theorem isDefLine_newEnvLine (key value : List Char)
    (hk : isWordKey key = true) (hv : valueOk value = true) :
    isDefLine key (newEnvLine key value) = true := by
  simp [isDefLine, exportLineMatch_newEnvLine key value hk hv]

/-! ## Lemmas about line replacement and joining -/

theorem replaceFirstLine_ne_nil (p : List Char → Bool) (f : List Char → List Char)
    (ls : List (List Char)) (h : ls ≠ []) : replaceFirstLine p f ls ≠ [] := by
  cases ls with
  | nil => exact absurd rfl h
  | cons l ls =>
    unfold replaceFirstLine
    by_cases hp : p l = true <;> simp [hp]

theorem mem_replaceFirstLine (p : List Char → Bool) (f : List Char → List Char)
    (ls : List (List Char)) :
    ∀ x ∈ replaceFirstLine p f ls, x ∈ ls ∨ ∃ l, l ∈ ls ∧ p l = true ∧ x = f l := by
  induction ls with
  | nil => intro x hx; simp [replaceFirstLine] at hx
  | cons l ls ih =>
    intro x hx
    unfold replaceFirstLine at hx
    by_cases hp : p l = true
    · rw [if_pos hp] at hx
      rcases List.mem_cons.mp hx with h | h
      · exact Or.inr ⟨l, List.mem_cons_self _ _, hp, h⟩
      · exact Or.inl (List.mem_cons_of_mem _ h)
    · rw [if_neg hp] at hx
      rcases List.mem_cons.mp hx with h | h
      · exact Or.inl (h ▸ List.mem_cons_self _ _)
      · rcases ih x h with h' | ⟨m, hm, hpm, hxm⟩
        · exact Or.inl (List.mem_cons_of_mem _ h')
        · exact Or.inr ⟨m, List.mem_cons_of_mem _ hm, hpm, hxm⟩

theorem filter_replaceFirstLine (p d : List Char → Bool) (f : List Char → List Char)
    (nl : List Char) (ls : List (List Char))
    (hex : ls.any p = true)
    (hc : (ls.filter d).length ≤ 1)
    (hpd : ∀ l, p l = true → d l = true)
    (hnl : d nl = true)
    (hf : ∀ l ∈ ls, p l = true → f l = nl) :
    (replaceFirstLine p f ls).filter d = [nl] := by
  induction ls with
  | nil => simp at hex
  | cons l ls ih =>
    unfold replaceFirstLine
    by_cases hp : p l = true
    · rw [if_pos hp]
      have hfl : f l = nl := hf l (List.mem_cons_self _ _) hp
      have hdl : d l = true := hpd l hp
      have hrest : ls.filter d = [] := by
        have hlen : (List.filter d (l :: ls)).length = (ls.filter d).length + 1 := by
          rw [List.filter_cons_of_pos hdl]
          simp
        have := hc
        rw [hlen] at this
        have h0 : (ls.filter d).length = 0 := by omega
        exact List.length_eq_zero.mp h0
      rw [hfl, List.filter_cons_of_pos hnl, hrest]
    · rw [if_neg hp]
      have hex' : ls.any p = true := by
        rcases List.any_eq_true.mp hex with ⟨m, hm, hpm⟩
        rcases List.mem_cons.mp hm with h | h
        · subst h; exact absurd hpm hp
        · exact List.any_eq_true.mpr ⟨m, h, hpm⟩
      have hdl : d l = false := by
        cases hdl' : d l with
        | false => rfl
        | true =>
          rcases List.any_eq_true.mp hex' with ⟨m, hm, hpm⟩
          have hdm : d m = true := hpd m hpm
          have hmem : m ∈ ls.filter d := List.mem_filter.mpr ⟨hm, hdm⟩
          have h1 : 0 < (ls.filter d).length :=
            List.length_pos.mpr (List.ne_nil_of_mem hmem)
          have hlen : (List.filter d (l :: ls)).length = (ls.filter d).length + 1 := by
            rw [List.filter_cons_of_pos hdl']
            simp
          have := hc
          rw [hlen] at this
          omega
      rw [List.filter_cons_of_neg (by simp [hdl])]
      have hc' : (ls.filter d).length ≤ 1 := by
        have : List.filter d (l :: ls) = ls.filter d := List.filter_cons_of_neg (by simp [hdl])
        rw [this] at hc
        exact hc
      exact ih hex' hc' (fun m hm hpm => hf m (List.mem_cons_of_mem _ hm) hpm)

theorem mem_joinLines (ls : List (List Char)) :
    ∀ x ∈ joinLines ls, (∃ l ∈ ls, x ∈ l) ∨ x = '\n' := by
  induction ls with
  | nil => intro x hx; simp [joinLines] at hx
  | cons l ls ih =>
    cases ls with
    | nil =>
      intro x hx
      exact Or.inl ⟨l, List.mem_cons_self _ _, hx⟩
    | cons l2 ls2 =>
      intro x hx
      have hj : joinLines (l :: l2 :: ls2) = l ++ '\n' :: joinLines (l2 :: ls2) := rfl
      rw [hj] at hx
      rcases List.mem_append.mp hx with h | h
      · exact Or.inl ⟨l, List.mem_cons_self _ _, h⟩
      · rcases List.mem_cons.mp h with h | h
        · exact Or.inr h
        · rcases ih x h with ⟨m, hm, hxm⟩ | h'
          · exact Or.inl ⟨m, List.mem_cons_of_mem _ hm, hxm⟩
          · exact Or.inr h'

/-! ## Character-level helper lemmas -/

theorem dotOk_props {c : Char} (h : dotOk c = true) :
    ¬(c = '\n') ∧ badSepChar c = false := by
  simp only [dotOk, Bool.not_eq_true', Bool.or_eq_false_iff] at h
  rcases h with ⟨h1, h2⟩
  exact ⟨by simpa using h1, h2⟩

theorem isWordKey_all {key : List Char} (hk : isWordKey key = true) :
    ∀ x ∈ key, goodKeyChar x = true := by
  have := ((Bool.and_eq_true _ _).mp hk).2
  exact List.all_eq_true.mp this

theorem newEnvLine_chars (key value : List Char) (hk : isWordKey key = true)
    (hv : valueOk value = true) :
    ∀ x ∈ newEnvLine key value, ¬(x = '\n') ∧ badSepChar x = false := by
  intro x hx
  unfold newEnvLine at hx
  rcases List.mem_append.mp hx with hx1 | hx2
  · rcases List.mem_append.mp hx1 with hxa | hxk
    · have hlit : ∀ y ∈ ("export ".toList), ¬(y = '\n') ∧ badSepChar y = false := by decide
      exact hlit x hxa
    · have hg := isWordKey_all hk x hxk
      rcases goodKeyChar_props hg with ⟨_, h2, h3⟩
      exact ⟨h2, h3⟩
  · rcases List.mem_cons.mp hx2 with hxe | hxvv
    · subst hxe
      exact ⟨by decide, by decide⟩
    · exact dotOk_props (valueOk_props hv x hxvv)

theorem isDanglingExport_nil : isDanglingExport [] = false := by decide

theorem isDefLine_nil {key : List Char} (hk : isWordKey key = true) :
    isDefLine key [] = false := by
  rcases isWordKey_head hk with ⟨k0, ks, hkey, _⟩
  subst hkey
  have he : stripLit ("export".toList) ([] : List Char) = none := rfl
  simp [isDefLine, exportLineMatch, regularLineMatch, he, stripLit]

theorem stripLit_export_newEnvLine (key value : List Char) :
    stripLit ("export".toList) (newEnvLine key value) =
      some (' ' :: (key ++ '=' :: value)) := by
  have e0 : newEnvLine key value = ("export".toList) ++ (' ' :: (key ++ '=' :: value)) := by
    unfold newEnvLine
    have hlit : ("export ".toList) = ("export".toList) ++ [' '] := rfl
    rw [hlit, List.append_assoc]
    rfl
  rw [e0, stripLit_self]

theorem isDanglingExport_newEnvLine (key value : List Char) (hk : isWordKey key = true) :
    isDanglingExport (newEnvLine key value) = false := by
  rcases isWordKey_head hk with ⟨k0, ks, hkey, hgood⟩
  have hsp : isJsSpace k0 = false := (goodKeyChar_props hgood).1
  unfold isDanglingExport
  simp only [stripLit_export_newEnvLine]
  cases hall : ((' ' :: (key ++ '=' :: value)).all isJsSpace) with
  | false => rfl
  | true =>
    have hk0 : k0 ∈ ' ' :: (key ++ '=' :: value) := by
      rw [hkey]
      exact List.mem_cons_of_mem _ (List.mem_append_left _ (List.mem_cons_self _ _))
    have := List.all_eq_true.mp hall k0 hk0
    rw [hsp] at this
    exact Bool.noConfusion this

/-! ## The main environment-update lemma -/

theorem endsWithNewline_eq (c : List Char) (h : endsWithNewline c = true) :
    c = c.dropLast ++ ['\n'] := by
  unfold endsWithNewline at h
  rcases hg : c.getLast? with _ | ch
  · rw [hg] at h
    exact Bool.noConfusion h
  · rw [hg] at h
    have hne : c ≠ [] := by
      intro hc
      rw [hc] at hg
      exact Option.noConfusion hg
    have hch : ch = '\n' := by simpa using h
    have hgl : c.getLast hne = ch := by
      have := List.getLast?_eq_getLast c hne
      rw [hg] at this
      exact (Option.some.inj this).symm
    have hd := List.dropLast_append_getLast hne
    rw [hgl, hch] at hd
    exact hd.symm

theorem replaceBranch_spec (d p : List Char → Bool) (f : List Char → List Char)
    (nl : List Char) (ls : List (List Char))
    (hex : ls.any p = true)
    (hcount : (ls.filter d).length ≤ 1)
    (hpd : ∀ l, p l = true → d l = true)
    (hdnl : d nl = true)
    (hf : ∀ l ∈ ls, p l = true → f l = nl)
    (hNoNl : ∀ l ∈ ls, ∀ x ∈ l, ¬(x = '\n'))
    (hnlNoNl : ∀ x ∈ nl, ¬(x = '\n'))
    (hBadOld : ∀ l ∈ ls, ∀ x ∈ l, badSepChar x = false)
    (hnlBad : ∀ x ∈ nl, badSepChar x = false)
    (hdangOld : ∀ l ∈ ls, isDanglingExport l = false)
    (hdangNl : isDanglingExport nl = false) :
    (splitLines (joinLines (replaceFirstLine p f ls))).filter d = [nl] ∧
    envWellFormed (joinLines (replaceFirstLine p f ls)) = true := by
  have hne : ls ≠ [] := by
    intro h
    rw [h] at hex
    simp at hex
  have hmem : ∀ m ∈ replaceFirstLine p f ls, m ∈ ls ∨ m = nl := by
    intro m hm
    rcases mem_replaceFirstLine p f ls m hm with h | ⟨l, hl, hpl, hml⟩
    · exact Or.inl h
    · exact Or.inr (by rw [hml]; exact hf l hl hpl)
  have hNoNl' : ∀ m ∈ replaceFirstLine p f ls, ∀ x ∈ m, ¬(x = '\n') := by
    intro m hm x hx
    rcases hmem m hm with h | h
    · exact hNoNl m h x hx
    · subst h
      exact hnlNoNl x hx
  have hsplit : splitLines (joinLines (replaceFirstLine p f ls)) = replaceFirstLine p f ls :=
    splitLines_joinLines _ (replaceFirstLine_ne_nil p f ls hne) hNoNl'
  constructor
  · rw [hsplit]
    exact filter_replaceFirstLine p d f nl ls hex hcount hpd hdnl hf
  · unfold envWellFormed
    rw [Bool.and_eq_true]
    constructor
    · apply List.all_eq_true.mpr
      intro x hx
      rcases mem_joinLines _ x hx with ⟨m, hm, hxm⟩ | hx'
      · rcases hmem m hm with h | h
        · simp [hBadOld m h x hxm]
        · subst h
          simp [hnlBad x hxm]
      · subst hx'
        decide
    · apply List.all_eq_true.mpr
      intro m hm
      rw [hsplit] at hm
      rcases hmem m hm with h | h
      · simp [hdangOld m h]
      · subst h
        simp [hdangNl]

theorem updateEnvContent_spec (key value content : List Char)
    (hk : isWordKey key = true) (hv : valueOk value = true)
    (hwf : envWellFormed content = true)
    (hcount : (defLinesFor key content).length ≤ 1) :
    defLinesFor key (updateEnvContent key value content) = [newEnvLine key value] ∧
    envWellFormed (updateEnvContent key value content) = true := by
  have hwf' := (Bool.and_eq_true _ _).mp hwf
  have hchars : ∀ x ∈ content, badSepChar x = false := by
    intro x hx
    have := List.all_eq_true.mp hwf'.1 x hx
    simpa using this
  have hdang : ∀ l ∈ splitLines content, isDanglingExport l = false := by
    intro l hl
    have := List.all_eq_true.mp hwf'.2 l hl
    simpa using this
  have hlinechars : ∀ l ∈ splitLines content, ∀ x ∈ l, dotOk x = true := by
    intro l hl x hx
    rcases mem_splitLines_mem content l hl x hx with ⟨hxc, hxn⟩
    have hb := hchars x hxc
    simp [dotOk, hxn, hb]
  have hlineNoNl : ∀ l ∈ splitLines content, ∀ x ∈ l, ¬(x = '\n') :=
    fun l hl x hx => (mem_splitLines_mem content l hl x hx).2
  have hlineBad : ∀ l ∈ splitLines content, ∀ x ∈ l, badSepChar x = false :=
    fun l hl x hx => hchars x (mem_splitLines_mem content l hl x hx).1
  have hnlNoNl : ∀ x ∈ newEnvLine key value, ¬(x = '\n') :=
    fun x hx => (newEnvLine_chars key value hk hv x hx).1
  have hnlBad : ∀ x ∈ newEnvLine key value, badSepChar x = false :=
    fun x hx => (newEnvLine_chars key value hk hv x hx).2
  have hdnl : (fun l => isDefLine key l) (newEnvLine key value) = true :=
    isDefLine_newEnvLine key value hk hv
  have hdangNl : isDanglingExport (newEnvLine key value) = false :=
    isDanglingExport_newEnvLine key value hk
  unfold defLinesFor at hcount
  unfold updateEnvContent
  by_cases h1 : (splitLines content).any (fun l => (exportLineMatch key l).isSome) = true
  · rw [if_pos h1]
    have hf : ∀ l ∈ splitLines content,
        (fun l => (exportLineMatch key l).isSome) l = true →
        (fun l => newEnvLine key value ++ ((exportLineMatch key l).getD [])) l =
          newEnvLine key value := by
      intro l hl hpl
      rcases Option.isSome_iff_exists.mp hpl with ⟨r, hr⟩
      have hres : r = [] := exportLineMatch_residue key l r (hlinechars l hl) hr
      subst hres
      simp [hr]
    have := replaceBranch_spec (fun l => isDefLine key l)
      (fun l => (exportLineMatch key l).isSome)
      (fun l => newEnvLine key value ++ ((exportLineMatch key l).getD []))
      (newEnvLine key value) (splitLines content)
      h1 hcount (fun l hpl => by simp [isDefLine, hpl]) hdnl hf
      hlineNoNl hnlNoNl hlineBad hnlBad hdang hdangNl
    exact ⟨this.1, this.2⟩
  · rw [if_neg h1]
    by_cases h2 : (splitLines content).any (fun l => (regularLineMatch key l).isSome) = true
    · rw [if_pos h2]
      have hf : ∀ l ∈ splitLines content,
          (fun l => (regularLineMatch key l).isSome) l = true →
          (fun l => newEnvLine key value ++ ((regularLineMatch key l).getD [])) l =
            newEnvLine key value := by
        intro l hl hpl
        rcases Option.isSome_iff_exists.mp hpl with ⟨r, hr⟩
        have hres : r = [] := regularLineMatch_residue key l r (hlinechars l hl) hr
        subst hres
        simp [hr]
      have := replaceBranch_spec (fun l => isDefLine key l)
        (fun l => (regularLineMatch key l).isSome)
        (fun l => newEnvLine key value ++ ((regularLineMatch key l).getD []))
        (newEnvLine key value) (splitLines content)
        h2 hcount (fun l hpl => by simp [isDefLine, hpl]) hdnl hf
        hlineNoNl hnlNoNl hlineBad hnlBad hdang hdangNl
      exact ⟨this.1, this.2⟩
    · rw [if_neg h2]
      have hndef : ∀ l ∈ splitLines content, isDefLine key l = false := by
        intro l hl
        have e1 : (exportLineMatch key l).isSome = false := by
          cases he : (exportLineMatch key l).isSome with
          | false => rfl
          | true => exact absurd (List.any_eq_true.mpr ⟨l, hl, he⟩) h1
        have e2 : (regularLineMatch key l).isSome = false := by
          cases he : (regularLineMatch key l).isSome with
          | false => rfl
          | true => exact absurd (List.any_eq_true.mpr ⟨l, hl, he⟩) h2
        simp [isDefLine, e1, e2]
      -- uniform shape: the padded content is q ++ ['\n'] with
      -- splitLines q contained in splitLines content
      obtain ⟨q, hq, hqsub, hqchars⟩ :
          ∃ q, (if endsWithNewline content then content else content ++ ['\n']) =
              q ++ ['\n'] ∧
            (∀ l ∈ splitLines q, l ∈ splitLines content) ∧
            (∀ x ∈ q, x ∈ content) := by
        by_cases hend : endsWithNewline content = true
        · refine ⟨content.dropLast, by rw [if_pos hend]; exact endsWithNewline_eq content hend,
            ?_, fun x hx => List.dropLast_subset _ hx⟩
          intro l hl
          have hcontent := endsWithNewline_eq content hend
          have hsplit : splitLines content = splitLines content.dropLast ++ [[]] := by
            conv_lhs => rw [hcontent]
            have : content.dropLast ++ ['\n'] = content.dropLast ++ '\n' :: [] := rfl
            rw [this, splitLines_append_line _ _ (by intro x hx; simp at hx)]
          rw [hsplit]
          exact List.mem_append_left _ hl
        · refine ⟨content, by rw [if_neg hend], fun l hl => hl, fun x hx => hx⟩
      rw [hq]
      have hassoc : q ++ ['\n'] ++ newEnvLine key value ++ ['\n'] =
          (q ++ '\n' :: newEnvLine key value) ++ '\n' :: [] := by
        simp [List.append_assoc]
      rw [hassoc]
      have hlines : splitLines ((q ++ '\n' :: newEnvLine key value) ++ '\n' :: []) =
          (splitLines q ++ [newEnvLine key value]) ++ [[]] := by
        rw [splitLines_append_line _ _ (by intro x hx; simp at hx)]
        rw [splitLines_append_line _ _ hnlNoNl]
      constructor
      · unfold defLinesFor
        rw [hlines]
        rw [List.filter_append, List.filter_append]
        have hfq : (splitLines q).filter (fun l => isDefLine key l) = [] := by
          apply List.filter_eq_nil_iff.mpr
          intro l hl
          simp [hndef l (hqsub l hl)]
        rw [hfq]
        have hfnl : [newEnvLine key value].filter (fun l => isDefLine key l) =
            [newEnvLine key value] := by
          simp [List.filter, hdnl]
        rw [hfnl]
        have hfe : ([([] : List Char)]).filter (fun l => isDefLine key l) = [] := by
          simp [List.filter, isDefLine_nil hk]
        rw [hfe]
        simp
      · unfold envWellFormed
        rw [Bool.and_eq_true]
        constructor
        · apply List.all_eq_true.mpr
          intro x hx
          rcases List.mem_append.mp hx with hx1 | hx2
          · rcases List.mem_append.mp hx1 with hxq | hxn
            · simp [hchars x (hqchars x hxq)]
            · rcases List.mem_cons.mp hxn with hxe | hxnl
              · subst hxe
                decide
              · simp [hnlBad x hxnl]
          · rcases List.mem_cons.mp hx2 with hxe | hxabs
            · subst hxe
              decide
            · simp at hxabs
        · apply List.all_eq_true.mpr
          intro m hm
          rw [hlines] at hm
          rcases List.mem_append.mp hm with hm1 | hm2
          · rcases List.mem_append.mp hm1 with hmq | hmn
            · simp [hdang m (hqsub m hmq)]
            · have hmeq : m = newEnvLine key value := by simpa using hmn
              subst hmeq
              simp [isDanglingExport_newEnvLine key value hk]
          · have hmeq : m = ([] : List Char) := by simpa using hm2
            subst hmeq
            simp [isDanglingExport_nil]

/-! ## Lemmas about the address extractor -/

theorem classTake_cap_ne_nil (cls : Char → Bool) :
    ∀ t cap, classTake cls t = some cap → cap ≠ [] := by
  intro t cap h
  unfold classTake at h
  cases he : (t.takeWhile cls).isEmpty <;> rw [he] at h
  · simp only [Bool.false_eq_true, if_false] at h
    intro hcap
    rw [← Option.some.inj h] at hcap
    rw [hcap] at he
    simp at he
  · simp at h

theorem logsTail_cap_ne_nil : ∀ t cap, logsTail t = some cap → cap ≠ [] := by
  intro t cap h
  unfold logsTail at h
  split at h
  · split at h
    · split at h
      · rw [← Option.some.inj h]
        simp
      · exact absurd h (by simp)
    · exact absurd h (by simp)
  · exact absurd h (by simp)

theorem verifyTail_cap_ne_nil : ∀ t cap, verifyTail t = some cap → cap ≠ [] := by
  intro t cap h
  unfold verifyTail at h
  split at h
  · split at h
    · split at h
      · split at h
        · rw [← Option.some.inj h]
          simp
        · exact absurd h (by simp)
      · exact absurd h (by simp)
    · exact absurd h (by simp)
  · exact absurd h (by simp)

theorem scanMatch_cap_ne_nil (eqc : Char → Char → Bool) (lit : List Char)
    (k : List Char → Option (List Char))
    (hk : ∀ t cap, k t = some cap → cap ≠ []) :
    ∀ s cap, scanMatch eqc lit k s = some cap → cap ≠ [] := by
  intro s
  induction s with
  | nil =>
    intro cap h
    unfold scanMatch at h
    rcases Option.bind_eq_some.mp h with ⟨t, _, hkt⟩
    exact hk t cap hkt
  | cons c rest ih =>
    intro cap h
    unfold scanMatch at h
    rcases hm : (stripLitBy eqc lit (c :: rest)).bind k with _ | cap' <;>
      simp only [hm] at h
    · exact ih cap h
    · rcases Option.bind_eq_some.mp hm with ⟨t, _, hkt⟩
      exact (Option.some.inj h) ▸ hk t cap' hkt

theorem addressPatterns_cap_ne_nil :
    ∀ p ∈ addressPatterns, ∀ s cap, p s = some cap → cap ≠ [] := by
  intro p hp
  simp only [addressPatterns, List.mem_cons, List.not_mem_nil, or_false] at hp
  rcases hp with rfl | rfl | rfl | rfl | rfl | rfl | rfl
  · exact scanMatch_cap_ne_nil _ _ _ (classTake_cap_ne_nil _)
  · exact scanMatch_cap_ne_nil _ _ _ (classTake_cap_ne_nil _)
  · exact scanMatch_cap_ne_nil _ _ _ (classTake_cap_ne_nil _)
  · exact scanMatch_cap_ne_nil _ _ _ (classTake_cap_ne_nil _)
  · exact scanMatch_cap_ne_nil _ _ _ (classTake_cap_ne_nil _)
  · exact scanMatch_cap_ne_nil _ _ _ logsTail_cap_ne_nil
  · exact scanMatch_cap_ne_nil _ _ _ verifyTail_cap_ne_nil

theorem firstCapture_none_iff (ps : List (List Char → Option (List Char))) (s : List Char)
    (hne : ∀ p ∈ ps, ∀ cap, p s = some cap → cap ≠ []) :
    (firstCapture ps s = none ↔ ∀ p ∈ ps, p s = none) := by
  induction ps with
  | nil => simp [firstCapture]
  | cons p ps ih =>
    have hne' : ∀ q ∈ ps, ∀ cap, q s = some cap → cap ≠ [] :=
      fun q hq => hne q (List.mem_cons_of_mem _ hq)
    constructor
    · intro h q hq
      unfold firstCapture at h
      rcases hp : p s with _ | cap <;> simp only [hp] at h
      · rcases List.mem_cons.mp hq with rfl | hq'
        · exact hp
        · exact (ih hne').mp h q hq'
      · have hcap := hne p (List.mem_cons_self _ _) cap hp
        have hemp : cap.isEmpty = false := by
          cases cap with
          | nil => exact absurd rfl hcap
          | cons a as => rfl
        rw [hemp] at h
        simp at h
    · intro h
      unfold firstCapture
      simp only [h p (List.mem_cons_self _ _)]
      exact (ih hne').mpr (fun q hq => h q (List.mem_cons_of_mem _ hq))

theorem firstCapture_first (ps : List (List Char → Option (List Char))) (s : List Char)
    (hne : ∀ p ∈ ps, ∀ cap, p s = some cap → cap ≠ []) :
    ∀ i (hi : i < ps.length) cap, (ps.get ⟨i, hi⟩) s = some cap →
      (∀ j (hj : j < i), (ps.get ⟨j, Nat.lt_trans hj hi⟩) s = none) →
      firstCapture ps s = some cap := by
  induction ps with
  | nil =>
    intro i hi
    simp at hi
  | cons p ps ih =>
    have hne' : ∀ q ∈ ps, ∀ cap, q s = some cap → cap ≠ [] :=
      fun q hq => hne q (List.mem_cons_of_mem _ hq)
    intro i hi cap hcap hprev
    cases i with
    | zero =>
      have hp : p s = some cap := hcap
      unfold firstCapture
      simp only [hp]
      have hcapne := hne p (List.mem_cons_self _ _) cap hp
      have hemp : cap.isEmpty = false := by
        cases cap with
        | nil => exact absurd rfl hcapne
        | cons a as => rfl
      rw [hemp]
      simp
    | succ i' =>
      have hp0 : p s = none := hprev 0 (Nat.succ_pos i')
      unfold firstCapture
      simp only [hp0]
      exact ih hne' i' (Nat.lt_of_succ_lt_succ hi) cap hcap
        (fun j hj => hprev (j + 1) (Nat.succ_lt_succ hj))

/-! ## Lemmas about the pipeline -/

theorem runPlan_stages_sublist (ps : List (Stage × Bool)) :
    List.Sublist (runPlan ps).1 (ps.map Prod.fst) := by
  induction ps with
  | nil => simp [runPlan]
  | cons sb rest ih =>
    rcases sb with ⟨s, ok⟩
    unfold runPlan
    cases ok with
    | true =>
      simp only [if_true]
      exact List.Sublist.cons₂ s ih
    | false =>
      simp only [Bool.false_eq_true, if_false]
      exact List.Sublist.cons₂ s (List.nil_sublist _)

theorem stagePlan_stages (fns auto vOk fOk eOk pOk sOk cOk aOk : Bool) :
    List.Sublist ((stagePlan fns auto vOk fOk eOk pOk sOk cOk aOk).map Prod.fst)
      canonicalStageOrder := by
  cases fns <;> cases auto <;>
    simp [stagePlan, canonicalStageOrder]

/-! ## Claim theorems -/

/-- C1, counterexample to the claim as stated: on a content holding both
an `export K=` and a plain `K=` definition, `updateEnvFile` rewrites only
the first matching line, so two active definitions of `K` remain after a
successful update - more than the "at most one" the claim asserts. -/
theorem claim_c1_cex :
    updateEnvContent ("K".toList) ("v".toList) ("export K=a\nK=b\n".toList) =
      ("export K=v\nK=b\n".toList) ∧
    ¬((defLinesFor ("K".toList)
        (updateEnvContent ("K".toList) ("v".toList) ("export K=a\nK=b\n".toList))).length ≤ 1) := by
  decide

/-- C1 (amended): for a non-empty word-character key, a single-line
`'$'`-free value and a well-formed content holding at most one active
definition line for the key, a successful `updateEnvFile` leaves exactly
one active definition line for that key, namely `export KEY=value`; a
second update of the same key again leaves exactly that one line. -/
theorem claim_c1_update_unique_def (key value value' content : List Char)
    (hk : isWordKey key = true) (hv : valueOk value = true) (hv' : valueOk value' = true)
    (hwf : envWellFormed content = true)
    (hcount : (defLinesFor key content).length ≤ 1) :
    defLinesFor key (updateEnvContent key value content) = [newEnvLine key value] ∧
    defLinesFor key (updateEnvContent key value' (updateEnvContent key value content)) =
      [newEnvLine key value'] := by
  obtain ⟨hfil, hwf2⟩ := updateEnvContent_spec key value content hk hv hwf hcount
  refine ⟨hfil, ?_⟩
  have hcount2 : (defLinesFor key (updateEnvContent key value content)).length ≤ 1 := by
    rw [hfil]
    simp
  exact (updateEnvContent_spec key value' _ hk hv' hwf2 hcount2).1

/-- Witness for `claim_c1_update_unique_def` at a concrete key, two
concrete values and a concrete one-line content. -/
theorem claim_c1_witness :
    defLinesFor ("K".toList) (updateEnvContent ("K".toList) ("v1".toList) ("A=1\n".toList)) =
      [newEnvLine ("K".toList) ("v1".toList)] ∧
    defLinesFor ("K".toList) (updateEnvContent ("K".toList) ("v2".toList)
        (updateEnvContent ("K".toList) ("v1".toList) ("A=1\n".toList))) =
      [newEnvLine ("K".toList) ("v2".toList)] :=
  claim_c1_update_unique_def ("K".toList) ("v1".toList) ("v2".toList) ("A=1\n".toList)
    (by decide) (by decide) (by decide) (by decide) (by decide)

/-- C5: the write is temp-file-then-rename; a crash after the temp write
but before the rename leaves the environment file's content untouched,
and the completed sequence installs exactly the new content. -/
theorem claim_c5_atomic_write (key value : List Char) (fs : FsState) :
    (writeTmp (newEnvContent key value fs) fs).envFile = fs.envFile ∧
    updateEnvFileFs key value fs =
      { envFile := some (newEnvContent key value fs), tmpFile := none } :=
  ⟨rfl, rfl⟩

/-- C7: when no line of the content defines the key, `updateEnvFile`
appends `export KEY=value` at the end (padding with a newline only when
the content does not already end with one), leaves every pre-existing
character - hence every pre-existing line, in order - unchanged, and the
appended line is then the content's only active definition of the key. -/
theorem claim_c7_append_preserves (key value content : List Char)
    (hk : isWordKey key = true) (hv : valueOk value = true)
    (hwf : envWellFormed content = true)
    (hnd : (splitLines content).all (fun l => !isDefLine key l) = true) :
    updateEnvContent key value content =
      (if endsWithNewline content then content else content ++ ['\n']) ++
        newEnvLine key value ++ ['\n'] ∧
    defLinesFor key (updateEnvContent key value content) = [newEnvLine key value] := by
  have hndef : ∀ l ∈ splitLines content, isDefLine key l = false := by
    intro l hl
    have := List.all_eq_true.mp hnd l hl
    simpa using this
  have h1 : ¬((splitLines content).any (fun l => (exportLineMatch key l).isSome) = true) := by
    intro h
    rcases List.any_eq_true.mp h with ⟨l, hl, hb⟩
    have hd := hndef l hl
    rw [isDefLine, hb] at hd
    simp at hd
  have h2 : ¬((splitLines content).any (fun l => (regularLineMatch key l).isSome) = true) := by
    intro h
    rcases List.any_eq_true.mp h with ⟨l, hl, hb⟩
    have hd := hndef l hl
    rw [isDefLine, hb] at hd
    simp at hd
  constructor
  · unfold updateEnvContent
    rw [if_neg h1, if_neg h2]
  · have hcount : (defLinesFor key content).length ≤ 1 := by
      unfold defLinesFor
      rw [List.filter_eq_nil_iff.mpr (fun l hl => by simp [hndef l hl])]
      simp
    exact (updateEnvContent_spec key value content hk hv hwf hcount).1

/-- Witness for `claim_c7_append_preserves` on a content without a
definition of the key and without a trailing newline. -/
theorem claim_c7_witness :
    updateEnvContent ("K".toList) ("v".toList) ("A=1".toList) =
      (if endsWithNewline ("A=1".toList) then ("A=1".toList)
        else ("A=1".toList) ++ ['\n']) ++
        newEnvLine ("K".toList) ("v".toList) ++ ['\n'] ∧
    defLinesFor ("K".toList) (updateEnvContent ("K".toList) ("v".toList) ("A=1".toList)) =
      [newEnvLine ("K".toList) ("v".toList)] :=
  claim_c7_append_preserves ("K".toList) ("v".toList) ("A=1".toList)
    (by decide) (by decide) (by decide) (by decide)

/-- C2, counterexample to the claim as stated: with both services
selected and the functions setup step failing, the single top-level
`try`/`catch` of `deploy` exits with code 1 before the automation
registrar ever starts - the other registrar is not "still executed". -/
theorem claim_c2_cex :
    Stage.registerAutomationStep ∉ (deployRun true true true true true true false true true).1 ∧
    (deployRun true true true true true true false true true).2 = 1 := by
  decide

/-- C2 (amended): a failure inside a registrar's step sequence aborts
the remaining steps of that registrar and the whole remaining pipeline
(exit code 1); a registrar scheduled after the failing one is not
executed, and only a registrar that already ran to completion before the
failure is unaffected.  In particular, with both services selected, a
functions failure skips automation, while an automation failure happens
after the functions steps completed. -/
theorem claim_c2_failure_aborts_pipeline : ∀ (sOk cOk aOk : Bool),
    ((sOk = false ∨ cOk = false) →
      Stage.registerAutomationStep ∉ (deployRun true true true true true true sOk cOk aOk).1 ∧
      (deployRun true true true true true true sOk cOk aOk).2 = 1) ∧
    (aOk = false → sOk = true → cOk = true →
      Stage.setupFunctionsStep ∈ (deployRun true true true true true true sOk cOk aOk).1 ∧
      Stage.addConsumerStep ∈ (deployRun true true true true true true sOk cOk aOk).1 ∧
      Stage.registerAutomationStep ∈ (deployRun true true true true true true sOk cOk aOk).1 ∧
      (deployRun true true true true true true sOk cOk aOk).2 = 1) := by
  decide

/-- Witness for `claim_c2_failure_aborts_pipeline`: a concrete run where
the consumer-registration step fails. -/
theorem claim_c2_witness :
    Stage.registerAutomationStep ∉ (deployRun true true true true true true true false true).1 ∧
    (deployRun true true true true true true true false true).2 = 1 :=
  (claim_c2_failure_aborts_pipeline true false true).1 (Or.inr rfl)

/-- C3, counterexample to the claim as stated: in the all-success run
with both services selected, the consumer registration is started before
the automation registration, not after it as the claim orders them. -/
theorem claim_c3_cex :
    Stage.addConsumerStep ∈ (deployRun true true true true true true true true true).1 ∧
    Stage.registerAutomationStep ∈ (deployRun true true true true true true true true true).1 ∧
    ¬((deployRun true true true true true true true true true).1.indexOf
          Stage.registerAutomationStep <
        (deployRun true true true true true true true true true).1.indexOf
          Stage.addConsumerStep) := by
  decide

/-- C3 (amended): every run's started stages form a subsequence of the
fixed order validate, deploy command, extract address, persist address,
functions setup, consumer registration, automation registration - so the
compute-consumer registration always precedes the automation
registration, not the other way around. -/
theorem claim_c3_stage_order : ∀ (fns auto vOk fOk eOk pOk sOk cOk aOk : Bool),
    List.Sublist (deployRun fns auto vOk fOk eOk pOk sOk cOk aOk).1 canonicalStageOrder :=
  fun fns auto vOk fOk eOk pOk sOk cOk aOk =>
    (runPlan_stages_sublist _).trans (stagePlan_stages fns auto vOk fOk eOk pOk sOk cOk aOk)

/-- C4: `extractAddressFromForgeOutput` returns the first capture of the
first pattern of its fixed priority list that matches, and the not-found
signal `none` exactly when no pattern matches. -/
theorem claim_c4_extract_priority (s : List Char) :
    (extractAddressFromForgeOutput s = none ↔ ∀ p ∈ addressPatterns, p s = none) ∧
    (∀ i (hi : i < addressPatterns.length) cap,
      (addressPatterns.get ⟨i, hi⟩) s = some cap →
      (∀ j (hj : j < i), (addressPatterns.get ⟨j, Nat.lt_trans hj hi⟩) s = none) →
      extractAddressFromForgeOutput s = some cap) :=
  ⟨firstCapture_none_iff addressPatterns s
      (fun p hp cap => addressPatterns_cap_ne_nil p hp s cap),
   firstCapture_first addressPatterns s
      (fun p hp cap => addressPatterns_cap_ne_nil p hp s cap)⟩

/-- Witness for `claim_c4_extract_priority`: the second pattern is the
first to match a sample text and its capture is returned; a text no
pattern matches yields `none`. -/
theorem claim_c4_witness :
    extractAddressFromForgeOutput ("Deployed to: 0xAB".toList) = some ("0xAB".toList) ∧
    extractAddressFromForgeOutput ("no address".toList) = none := by
  constructor
  · have hi : 1 < addressPatterns.length := by decide
    refine (claim_c4_extract_priority _).2 1 hi ("0xAB".toList) ?_ ?_
    · rfl
    · intro j hj
      have hj0 : j = 0 := by omega
      subst hj0
      rfl
  · exact (claim_c4_extract_priority _).1.mpr (by decide)

/-- C6, counterexample to the claim as stated: starting from a process
environment without the key, a successful `updateEnvFile` makes the very
next `getEnvVar` return the new value with no reload step, because
`updateEnvFile` also assigns `process.env[key]`. -/
theorem claim_c6_cex :
    getEnvVar { fs := { envFile := some [], tmpFile := none }, procEnv := fun _ => none }
        ("K".toList) none = none ∧
    getEnvVar (updateEnvFile ("K".toList) ("V".toList)
        { fs := { envFile := some [], tmpFile := none }, procEnv := fun _ => none }).2
      ("K".toList) none = some ("V".toList) := by
  constructor
  · rfl
  · rfl

/-- C6 (amended): `getEnvVar` reads only the live process environment -
two states with the same `process.env` give identical reads whatever
their files hold - and since `updateEnvFile` also sets
`process.env[key] = value`, a read of the key right after a successful
update already returns the new (non-empty) value, no reload needed. -/
theorem claim_c6_env_read_immediate (st st' : ProcState) (key value : List Char)
    (dflt : Option (List Char)) (hpe : st.procEnv = st'.procEnv) (hvne : value ≠ []) :
    getEnvVar st key dflt = getEnvVar st' key dflt ∧
    getEnvVar (updateEnvFile key value st).2 key dflt = some value := by
  constructor
  · unfold getEnvVar
    rw [hpe]
  · have hbeta : (updateEnvFile key value st).2.procEnv key = some value := by
      simp [updateEnvFile]
    unfold getEnvVar
    rw [hbeta]
    cases value with
    | nil => exact absurd rfl hvne
    | cons v vs => rfl

/-- Witness for `claim_c6_env_read_immediate` at concrete states. -/
theorem claim_c6_witness :
    getEnvVar { fs := { envFile := none, tmpFile := none }, procEnv := fun _ => none }
        ("A".toList) none =
      getEnvVar { fs := { envFile := some [], tmpFile := some [] }, procEnv := fun _ => none }
        ("A".toList) none ∧
    getEnvVar (updateEnvFile ("A".toList) ("W".toList)
        { fs := { envFile := none, tmpFile := none }, procEnv := fun _ => none }).2
      ("A".toList) none = some ("W".toList) :=
  claim_c6_env_read_immediate _ _ ("A".toList) ("W".toList) none rfl (by decide)

/-- C8: the promise of `executeCommand` resolves with the buffered
stdout exactly when the command exits 0, and rejects with the callback's
error for every non-zero exit. -/
theorem claim_c8_exec_resolution (o : ExecOutcome) :
    (∀ s, executeCommand o = PromiseResult.resolved s ↔ (o.exitCode = 0 ∧ s = o.stdout)) ∧
    (¬(o.exitCode = 0) → executeCommand o = PromiseResult.rejected o.exitCode) := by
  constructor
  · intro s
    constructor
    · intro h
      unfold executeCommand execCallbackError at h
      by_cases he : o.exitCode = 0
      · rw [if_pos he] at h
        exact ⟨he, (PromiseResult.resolved.inj h).symm⟩
      · rw [if_neg he] at h
        exact PromiseResult.noConfusion h
    · rintro ⟨he, rfl⟩
      unfold executeCommand execCallbackError
      rw [if_pos he]
  · intro he
    unfold executeCommand execCallbackError
    rw [if_neg he]

/-- Witness for `claim_c8_exec_resolution`: a zero-exit command resolves
with its stdout, an exit-code-2 command rejects with that code. -/
theorem claim_c8_witness :
    executeCommand { exitCode := 0, stdout := ("out".toList), stderr := [] } =
        PromiseResult.resolved ("out".toList) ∧
    executeCommand { exitCode := 2, stdout := [], stderr := [] } =
        PromiseResult.rejected 2 :=
  ⟨((claim_c8_exec_resolution _).1 _).mpr ⟨rfl, rfl⟩,
   (claim_c8_exec_resolution _).2 (by decide)⟩

/-- C9: an empty-string environment value is falsy, so `getEnvVar`
returns the supplied default for it just as it does for an unset
variable. -/
theorem claim_c9_empty_is_default (st : ProcState) (key : List Char)
    (dflt : Option (List Char))
    (h : st.procEnv key = some [] ∨ st.procEnv key = none) :
    getEnvVar st key dflt = dflt := by
  unfold getEnvVar
  rcases h with h | h
  · rw [h]
    simp
  · rw [h]

/-- Witness for `claim_c9_empty_is_default` with an empty-string value
in the environment. -/
theorem claim_c9_witness :
    getEnvVar { fs := { envFile := none, tmpFile := none }, procEnv := fun _ => some [] }
      ("K2".toList) (some ("d".toList)) = some ("d".toList) :=
  claim_c9_empty_is_default _ _ _ (Or.inl rfl)

/-- C10, counterexample to the claim as stated: the upload succeeds and
its output contains the number 42, but the environment write in the
`try` block fails; the thrown write error lands in the function's own
`catch`, whose fallback write succeeds, so `setupFunctions` returns
`"1"` - not the last number of the output as the claim promises. -/
theorem claim_c10_cex :
    setupFunctions ⟨some (" 42 ".toList), false, true⟩ =
      (SetupResult.ok oneTok, [("42".toList), oneTok]) ∧
    ¬((setupFunctions ⟨some (" 42 ".toList), false, true⟩).1 =
      SetupResult.ok ("42".toList)) := by
  decide

/-- C10 (amended): `setupFunctions` never propagates an upload failure
and throws only when the fallback environment write in its `catch`
fails; a failed upload or number-free output yields a write of `"1"` and
return value `"1"`; with a successful upload whose output ends in a
number token, the number is returned provided the first environment
write succeeds, while a failed first write falls back to writing and
returning `"1"`. -/
theorem claim_c10_secrets_fallback (e : SetupEnv) :
    ((setupFunctions e).1 = SetupResult.thrown → e.write2Ok = false) ∧
    (e.uploadOutput = none → e.write2Ok = true →
      setupFunctions e = (SetupResult.ok oneTok, [oneTok])) ∧
    (∀ out, e.uploadOutput = some out → numberTokens out = [] → e.write1Ok = true →
      setupFunctions e = (SetupResult.ok oneTok, [oneTok])) ∧
    (∀ out v, e.uploadOutput = some out → (numberTokens out).getLast? = some v →
      e.write1Ok = true → setupFunctions e = (SetupResult.ok v, [v])) ∧
    (∀ out, e.uploadOutput = some out → e.write1Ok = false → e.write2Ok = true →
      setupFunctions e = (SetupResult.ok oneTok, [versionFromOutput out, oneTok])) := by
  rcases e with ⟨uo, w1, w2⟩
  refine ⟨?_, ?_, ?_, ?_, ?_⟩
  · intro h
    rcases uo with _ | out
    · cases w2 with
      | false => rfl
      | true => simp [setupFunctions] at h
    · cases w1 with
      | true => simp [setupFunctions] at h
      | false =>
        cases w2 with
        | false => rfl
        | true => simp [setupFunctions] at h
  · intro h1 h2
    have huo : uo = none := h1
    subst huo
    have hw2 : w2 = true := h2
    subst hw2
    simp [setupFunctions]
  · intro out h1 h2 h3
    have huo : uo = some out := h1
    subst huo
    have hw1 : w1 = true := h3
    subst hw1
    simp [setupFunctions, versionFromOutput, h2]
  · intro out v h1 h2 h3
    have huo : uo = some out := h1
    subst huo
    have hw1 : w1 = true := h3
    subst hw1
    simp [setupFunctions, versionFromOutput, h2]
  · intro out h1 h2 h3
    have huo : uo = some out := h1
    subst huo
    have hw1 : w1 = false := h2
    subst hw1
    have hw2 : w2 = true := h3
    subst hw2
    simp [setupFunctions]

/-- Witness for `claim_c10_secrets_fallback`: upload output `"v 7"`
with both writes succeeding returns the number token `"7"`. -/
theorem claim_c10_witness :
    setupFunctions ⟨some ("v 7".toList), true, true⟩ =
      (SetupResult.ok ("7".toList), [("7".toList)]) :=
  (claim_c10_secrets_fallback _).2.2.2.1 ("v 7".toList) ("7".toList) rfl (by decide) rfl
